import Mathlib

set_option maxHeartbeats 1000000
set_option maxRecDepth 100000

/-
Shallow embedding of `usecase.py`: a batch job that enriches a medicine
dataset with a "Usecase" column obtained from a generative-model API,
cleaned by regex heuristics, validated, and checkpointed to storage.

Strings are modelled as `List Char`.  Python regex matching with
`re.IGNORECASE` is modelled with ASCII lowercasing (`Char.toLower`);
Python whitespace is modelled by its ASCII whitespace characters.
All recursion is structural (fuel bounded by the list length where the
scan can skip ahead), so every definition evaluates by kernel reduction.
-/

namespace MedUsecase

/-- ASCII-case-insensitive prefix test: the pattern literal `lit` (stored
lowercase) matches at the head of `l` up to lowercasing.  Embeds matching a
literal regex alternative at one position under `re.IGNORECASE`. -/
def prefixCI : List Char → List Char → Bool
  | [], _ => true
  | _ :: _, [] => false
  | a :: as, c :: cs => (a == c.toLower) && prefixCI as cs

/-- Occurrence of the (lowercase) literal `lit` anywhere in `l`,
case-insensitively: embeds Python `lit in text.lower()` and `re.search`
for a literal pattern with `re.IGNORECASE`. -/
def occursCI (lit : List Char) : List Char → Bool
  | [] => lit.isEmpty
  | c :: r => prefixCI lit (c :: r) || occursCI lit r

/-- First literal of `lits` (in regex alternation priority order) matching at
the head of `l`; returns the length of the matched text. -/
def findLit (lits : List (List Char)) (l : List Char) : Option Nat :=
  match lits with
  | [] => none
  | lit :: rest => if prefixCI lit l then some lit.length else findLit rest l

/-- Single left-to-right pass deleting every non-overlapping leftmost match of
the literal alternation `lits`, exactly as `re.sub(pat, '', text)` does for an
alternation of literals.  `fuel` only bounds the recursion; it is always called
with `fuel = l.length`, which suffices because every step consumes at least one
character. -/
def removeLitsF (lits : List (List Char)) : Nat → List Char → List Char
  | 0, l => l
  | _ + 1, [] => []
  | f + 1, c :: rest =>
    match findLit lits (c :: rest) with
    | some (n + 1) => removeLitsF lits f (List.drop n rest)
    | _ => c :: removeLitsF lits f rest

def removeLits (lits : List (List Char)) (l : List Char) : List Char :=
  removeLitsF lits l.length l

/-- Literals of the first substitution in `clean_usecase`:
`re.sub(r'used (in|for|to)|treatment of|indicated for|helps with|treats', '', text, flags=re.IGNORECASE)`,
listed in regex alternation priority order. -/
def connectorLits : List (List Char) :=
  ["used in".data, "used for".data, "used to".data, "treatment of".data,
   "indicated for".data, "helps with".data, "treats".data]

/-- Literals of the second substitution in `clean_usecase`:
`re.sub(r'(such as|including|like|e\.g\.|i\.e\.)', '', text, flags=re.IGNORECASE)`. -/
def explanatoryLits : List (List Char) :=
  ["such as".data, "including".data, "like".data, "e.g.".data, "i.e.".data]

/-- Skip up to and including the first `')'`. -/
def dropParen (l : List Char) : List Char :=
  (l.dropWhile (fun c => !(c == ')'))).drop 1

/-- The third substitution in `clean_usecase`: `re.sub(r'\([^)]*\)', '', text)`.
A match starts at a `'('` that has some `')'` after it and extends through the
first such `')'`. -/
def removeParensF : Nat → List Char → List Char
  | 0, l => l
  | _ + 1, [] => []
  | f + 1, c :: rest =>
    if c == '(' && rest.contains ')' then removeParensF f (dropParen rest)
    else c :: removeParensF f rest

def removeParens (l : List Char) : List Char :=
  removeParensF l.length l

/-- Match of `(it|this)( is| can| may| will)?( be| also)? [^,]*,?` (IGNORECASE)
at the head of `l`.  Since every optional group starts with a space and the
mandatory space follows them, the pattern matches at a position exactly when
`"it "` or `"this "` occurs there (case-insensitively). -/
def itThisMatch (l : List Char) : Bool :=
  prefixCI "it ".data l || prefixCI "this ".data l

/-- Skip up to and including the first `','`. -/
def dropToComma (l : List Char) : List Char :=
  (l.dropWhile (fun c => !(c == ','))).drop 1

/-- The fourth substitution in `clean_usecase`:
`re.sub(r'(it|this)( is| can| may| will)?( be| also)? [^,]*,?', '', text, flags=re.IGNORECASE)`.
Every successful match at a position extends the greedy `[^,]*,?` through the
first comma at or after the position (or to the end of the string). -/
def removeItThisF : Nat → List Char → List Char
  | 0, l => l
  | _ + 1, [] => []
  | f + 1, c :: rest =>
    if itThisMatch (c :: rest) then removeItThisF f (dropToComma rest)
    else c :: removeItThisF f rest

def removeItThis (l : List Char) : List Char :=
  removeItThisF l.length l

/-- ASCII model of the whitespace stripped by Python `str.strip()`. -/
def pyWs (c : Char) : Bool :=
  c == ' ' || c == '\t' || c == '\n' || c == '\r' || c == '\x0b' || c == '\x0c'

/-- Python `str.strip()`. -/
def pyStrip (l : List Char) : List Char :=
  ((l.dropWhile pyWs).reverse.dropWhile pyWs).reverse

/-- Python `text.split(',')` (keeps empty segments). -/
def splitComma : List Char → List (List Char)
  | [] => [[]]
  | c :: r =>
    match splitComma r with
    | [] => [[]]
    | h :: t => if c == ',' then [] :: h :: t else (c :: h) :: t

/-- Python `', '.join(items)`. -/
def joinComma : List (List Char) → List Char
  | [] => []
  | [x] => x
  | x :: y :: t => x ++ ',' :: ' ' :: joinComma (y :: t)

/-- Item filter of `clean_usecase`: keep items with `len(item) < 50 and len(item) > 0`. -/
def okLen (item : List Char) : Bool :=
  decide (0 < item.length) && decide (item.length < 50)

/-- The split / strip / filter tail of `clean_usecase`:
`items = [item.strip() for item in text.split(',')]` filtered by `okLen`. -/
def cleanItems (l : List Char) : List (List Char) :=
  ((splitComma l).map pyStrip).filter okLen

/-- `clean_usecase` from `usecase.py`: the four `re.sub` passes, then split on
commas, strip items, drop empty or over-long items, and re-join with `", "`. -/
def clean_usecase (s : String) : String :=
  String.mk (joinComma (cleanItems
    (removeItThis (removeParens (removeLits explanatoryLits
      (removeLits connectorLits s.data))))))

/-- Python `\w` (word character), ASCII model. -/
def isWordChar (c : Char) : Bool :=
  c.isAlphanum || c == '_'

/-- Token match at the head of `l` with a word boundary after it (all tokens
end in a word character, so `\b` after the token means the next character is a
non-word character or the end of the string). -/
def wordTokAt (tok : List Char) (l : List Char) : Bool :=
  prefixCI tok l &&
    (match l.drop tok.length with
     | [] => true
     | c :: _ => !isWordChar c)

/-- Embedding of `re.search(r'\b(tok1|tok2|...)\b', s, re.IGNORECASE)` for
alternations of word tokens: scan every position, tracking whether the
previous character is a word character (`\b` before a token that starts with a
word character means the previous character is non-word or the start). -/
def searchWT (toks : List (List Char)) : Bool → List Char → Bool
  | _, [] => false
  | prevW, c :: r =>
    (!prevW && toks.any (fun t => wordTokAt t (c :: r))) || searchWT toks (isWordChar c) r

/-- Modal / auxiliary verb tokens of `validate_usecase`. -/
def modalLits : List (List Char) :=
  ["is".data, "are".data, "was".data, "were".data, "will".data, "should".data,
   "could".data, "would".data, "can".data, "may".data, "might".data, "must".data,
   "has".data, "have".data, "had".data, "does".data, "do".data, "did".data]

/-- Action verb tokens of `validate_usecase`. -/
def actionLits : List (List Char) :=
  ["treat".data, "use".data, "help".data, "provide".data, "reduce".data,
   "prevent".data, "manage".data, "relieve".data, "alleviate".data]

/-- `validate_usecase` from `usecase.py`: reject when longer than 150
characters or when either sentence-verb pattern family matches. -/
def validate_usecase (usecase : String) : Bool :=
  if usecase.length > 150 then false
  else if searchWT modalLits false usecase.data || searchWT actionLits false usecase.data then false
  else true

/-- `is_rate_limit_error` from `usecase.py`:
`"429" in str(e) or "quota" in str(e).lower() or "resource exhausted" in str(e).lower()`
(digits are unaffected by lowercasing, so all three are case-insensitive occurrence tests). -/
def is_rate_limit_error (e : String) : Bool :=
  occursCI "429".data e.data || occursCI "quota".data e.data ||
    occursCI "resource exhausted".data e.data

/-- Outcome of one call to the external model: a response text or a raised
exception carrying its message. -/
inductive CallResult where
  | ok (text : String)
  | err (msg : String)

/-- Python `'"\''` character class used by `.strip('"\'')`. -/
def isQuote (c : Char) : Bool :=
  c == '"' || c == '\''

def stripQuotes (l : List Char) : List Char :=
  ((l.dropWhile isQuote).reverse.dropWhile isQuote).reverse

/-- Body of `get_medicine_usecase` (inside its own `try`/`except`), given the
outcome of the single API call it makes:
on success, `usecase = response.text.strip().strip('"\'')` is cleaned, and the
empty result maps to `"unknown"`; a rate-limit exception is re-raised, any
other exception is caught and mapped to `"unknown"`. -/
def gmu_body (r : CallResult) : Except String String :=
  match r with
  | .ok t =>
    let u := clean_usecase (String.mk (stripQuotes (pyStrip t.data)))
    if u = "" then .ok "unknown" else .ok u
  | .err e => if is_rate_limit_error e then .error e else .ok "unknown"

/-- The `backoff.on_exception(backoff.expo, Exception, max_tries=3, giveup=...)`
decorator around `gmu_body`: up to `n` calls in total; an escaping exception is
retried only when `is_rate_limit_error` holds (otherwise the giveup predicate
re-raises it), and the last allowed attempt re-raises.  `att k` is the outcome
the external call would produce on the `k`-th invocation. -/
def backoffRetry (att : Nat → CallResult) : Nat → Nat → Except String String
  | _, 0 => .error ""
  | k, n + 1 =>
    match gmu_body (att k) with
    | .ok v => .ok v
    | .error e =>
      if is_rate_limit_error e = false then .error e
      else if n = 0 then .error e
      else backoffRetry att (k + 1) n

/-- `get_medicine_usecase` from `usecase.py`, as a function of the sequence of
external-call outcomes. -/
def get_medicine_usecase (att : Nat → CallResult) : Except String String :=
  backoffRetry att 0 3

/-- The validation step for one row inside `process_dataset` (lines 164-169):
keep a validated candidate, otherwise re-clean it once, otherwise `"unknown"`. -/
def resolveCandidate (u : String) : String :=
  if validate_usecase u then u
  else
    let u2 := clean_usecase u
    if validate_usecase u2 then u2 else "unknown"

/-- One dataset row: its fields used by the program and, for the embedding,
the oracle of outcomes its external calls would produce. -/
structure Row where
  name : String
  comp1 : Option String
  comp2 : Option String
  usecase : Option String
  attempts : Nat → CallResult

/-- The unresolved-row test of lines 144 and 284:
`isna | == '' | == 'unknown'` on the `Usecase` value. -/
def needsProcessing : Option String → Bool
  | none => true
  | some s => s == "" || s == "unknown"

/-- Orchestrator state: the in-memory dataframe `Usecase` column, the pending
`results_dict` (modelled as an insertion-ordered association list; each index
is enqueued at most once between flushes, so this coincides with the Python
dict), every snapshot written by `df.to_csv(output_file)` so far, and — as
pure instrumentation — the indices for which the row loop invoked the
enrichment query. -/
structure OSt where
  df : List (Option String)
  results : List (Nat × String)
  saves : List (List (Option String))
  queried : List Nat

/-- Apply the pending `results_dict` entries to the dataframe
(`for k, v in results_dict.items(): df.at[k, 'Usecase'] = v`). -/
def applyUpdates (df : List (Option String)) (rs : List (Nat × String)) :
    List (Option String) :=
  rs.foldl (fun d kv => d.set kv.1 (some kv.2)) df

/-- Apply pending results, write the dataframe to storage, clear the dict. -/
def flushSave (st : OSt) : OSt :=
  let df := applyUpdates st.df st.results
  { st with df := df, results := [], saves := st.saves ++ [df] }

/-- Lines 162-169 of the row loop: query the model, then validate / re-clean /
fall back to `"unknown"`.  An exception escaping `get_medicine_usecase`
propagates. -/
def processRow (att : Nat → CallResult) : Except String String :=
  match get_medicine_usecase att with
  | .error e => .error e
  | .ok u => .ok (resolveCandidate u)

/-- One iteration of the per-row loop (lines 157-217): on success store the
resolved value in `results_dict`; on a rate-limit exception save progress and
clear the dict (the handler then waits and the loop continues); on any other
exception log and continue; finally flush when 20 results accumulated. -/
def doRow (i : Nat) (att : Nat → CallResult) (st : OSt) : OSt :=
  let st := { st with queried := st.queried ++ [i] }
  let st : OSt :=
    match processRow att with
    | .ok v => { st with results := st.results ++ [(i, v)] }
    | .error e => if is_rate_limit_error e then flushSave st else st
  if 20 ≤ st.results.length then flushSave st else st

def rowAtt (rows : List Row) (i : Nat) : Nat → CallResult :=
  match rows.get? i with
  | some r => r.attempts
  | none => fun _ => CallResult.err ""

/-- One batch (lines 139-231): select the unresolved rows of the batch, skip
the batch entirely when there are none, otherwise run the row loop, then apply
any remaining results and save. -/
def doBatch (rows : List Row) (idxs : List Nat) (st : OSt) : OSt :=
  let todo := idxs.filter (fun i => needsProcessing (st.df.getD i none))
  if todo.isEmpty then st
  else flushSave (todo.foldl (fun s i => doRow i (rowAtt rows i) s) st)

/-- The index sets of the successive batches: batch `i` covers
`[i*bs, min((i+1)*bs, n))`, with `batch_count = (n + bs - 1) / bs`. -/
def chunkRange (n bs : Nat) : List (List Nat) :=
  (List.range ((n + bs - 1) / bs)).map
    (fun i => (List.range (min bs (n - i * bs))).map (fun j => i * bs + j))

/-- `process_dataset` from `usecase.py`, as a function of the rows read from
the input (with their call oracles) and the batch size. -/
def process_dataset (rows : List Row) (bs : Nat) : OSt :=
  (chunkRange rows.length bs).foldl (fun st c => doBatch rows c st)
    ⟨rows.map (fun r => r.usecase), [], [], []⟩

/-- `COMMON_MEDICINE_USECASES`: a Python dict with string keys, modelled as an
insertion-ordered association list (Python dict iteration follows insertion
order). -/
def COMMON_MEDICINE_USECASES : List (String × String) :=
  [("Augmentin", "bacterial infections, sinusitis, pneumonia, ear infections"),
   ("Azithromycin", "bacterial infections, respiratory infections, skin infections"),
   ("Amoxycillin", "bacterial infections, bronchitis, pneumonia, tonsillitis"),
   ("Paracetamol", "fever, pain, headache"),
   ("Ibuprofen", "pain, inflammation, fever, arthritis"),
   ("Montelukast", "asthma, allergic rhinitis"),
   ("Fexofenadine", "allergies, hay fever, urticaria"),
   ("Cetirizine", "allergies, hay fever, urticaria"),
   ("Hydroxyzine", "anxiety, itching, allergies"),
   ("Levosalbutamol", "asthma, bronchospasm, COPD"),
   ("Ambroxol", "cough, bronchitis, respiratory congestion"),
   ("Pheniramine", "allergies, hay fever, itching"),
   ("Clavulanic Acid", "bacterial infections")]

def lowerL (l : List Char) : List Char :=
  l.map Char.toLower

/-- First whitespace-separated token:
`comp.split()[0] if comp.split() else ""`. -/
def firstWordWS (l : List Char) : List Char :=
  (l.dropWhile pyWs).takeWhile (fun c => !pyWs c)

/-- `get_usecase_from_lookup` from `usecase.py`.  The name pass tests
`key.lower() in medicine_name.lower()`.  The composition pass skips missing or
empty strings, takes the first whitespace token, and tests
`active.lower() in COMMON_MEDICINE_USECASES` — a case-sensitive dict
membership test of the lowercased token against the dict keys as written. -/
def get_usecase_from_lookup (medicine_name : String)
    (compositions : List (Option String)) : Option String :=
  match COMMON_MEDICINE_USECASES.find?
      (fun kv => occursCI (lowerL kv.1.data) medicine_name.data) with
  | some kv => some kv.2
  | none =>
    compositions.findSome? (fun comp =>
      match comp with
      | none => none
      | some c =>
        if c = "" then none
        else
          match COMMON_MEDICINE_USECASES.find?
              (fun kv => kv.1.data == lowerL (firstWordWS c.data)) with
          | some kv => some kv.2
          | none => none)

/-- The first pass of `process_dataset_with_fallback` (lines 283-287): fill
unresolved rows from the lookup table, in place. -/
def firstPass (rows : List Row) : List (Option String) :=
  (List.range rows.length).foldl
    (fun df i =>
      if needsProcessing (df.getD i none) then
        match rows.get? i with
        | some r =>
          match get_usecase_from_lookup r.name [r.comp1, r.comp2] with
          | some u => df.set i (some u)
          | none => df
        | none => df
      else df)
    (rows.map (fun r => r.usecase))

/-- `process_dataset_with_fallback` from `usecase.py`: lookup first pass,
save, then `process_dataset` on the saved output. -/
def process_dataset_with_fallback (rows : List Row) (bs : Nat) : OSt :=
  let df1 := firstPass rows
  let rows1 := List.zipWith (fun (r : Row) u => { r with usecase := u }) rows df1
  let st := process_dataset rows1 bs
  { st with saves := df1 :: st.saves }

end MedUsecase

namespace MedUsecase

/-! ### Helper lemmas about `gmu_body` and retry -/

theorem gmu_body_error {r : CallResult} {e : String} (h : gmu_body r = .error e) :
    is_rate_limit_error e = true := by
  cases r with
  | ok t =>
    simp only [gmu_body] at h
    split at h <;> simp_all
  | err m =>
    simp only [gmu_body] at h
    by_cases hm : is_rate_limit_error m <;> simp_all

theorem gmu_body_err (e : String) :
    gmu_body (.err e) =
      if is_rate_limit_error e then Except.error e else Except.ok "unknown" := rfl

theorem backoffRetry_error_rl {att : Nat → CallResult} {e : String} :
    ∀ n k, 0 < n → backoffRetry att k n = .error e → is_rate_limit_error e = true := by
  intro n
  induction n with
  | zero => intro k h; omega
  | succ m ih =>
    intro k _ h
    simp only [backoffRetry] at h
    cases hb : gmu_body (att k) with
    | ok v => rw [hb] at h; exact absurd h (by simp)
    | error e2 =>
      have hrl : is_rate_limit_error e2 = true := gmu_body_error hb
      rw [hb] at h
      simp only [hrl, Bool.true_eq_false, if_false] at h
      by_cases hm : m = 0
      · subst hm; simp only [if_pos rfl] at h; cases h; exact hrl
      · rw [if_neg hm] at h
        exact ih (k + 1) (Nat.pos_of_ne_zero hm) h

theorem processRow_error_rl {att : Nat → CallResult} {e : String}
    (h : processRow att = .error e) : is_rate_limit_error e = true := by
  simp only [processRow] at h
  cases hg : get_medicine_usecase att with
  | ok u => rw [hg] at h; exact absurd h (by simp)
  | error e2 =>
    rw [hg] at h
    cases h
    exact backoffRetry_error_rl 3 0 (by omega) hg

/-! ### C4 -/

/-- C4 counterexample: on the spec's example input the Normalizer does not
yield `"fever, headache"` — the `(it|this)... [^,]*,?` pass deletes everything
up to and including the first comma, taking `"fever"` with it. -/
theorem C4_counterexample :
    clean_usecase "This medicine is used for treatment of fever, headache (mild)" ≠
      "fever, headache" := by decide

/-- C4 (amended): for the input
`"This medicine is used for treatment of fever, headache (mild)"`,
`clean_usecase` returns exactly `"headache"`. -/
theorem C4_clean_example :
    clean_usecase "This medicine is used for treatment of fever, headache (mild)" =
      "headache" := by decide

/-! ### C6 -/

/-- C6 counterexample: a string of exactly 150 characters (so of length ≥ 150)
that `validate_usecase` accepts — the code rejects only lengths strictly
greater than 150. -/
theorem C6_counterexample :
    150 ≤ (String.mk (List.replicate 150 'a')).length ∧
    validate_usecase (String.mk (List.replicate 150 'a')) = true := by decide

/-- C6 (amended): every string of length strictly greater than 150 characters
is rejected by `validate_usecase`. -/
theorem C6_long_rejected (s : String) (h : s.length > 150) :
    validate_usecase s = false := by
  simp [validate_usecase, h]

theorem C6_long_rejected_witness :
    validate_usecase (String.mk (List.replicate 151 'a')) = false :=
  C6_long_rejected _ (by decide)

/-! ### C10 -/

/-- C10: the empty string is validator-accepted, so when the row loop's
re-cleaning of a validation-failed candidate yields the empty string, the
value stored for the row is `""` rather than `"unknown"`. -/
theorem C10_empty_accepted :
    validate_usecase "" = true ∧
    ∀ u : String, validate_usecase u = false → clean_usecase u = "" →
      resolveCandidate u = "" := by
  refine ⟨by decide, ?_⟩
  intro u h1 h2
  simp only [resolveCandidate, h1, Bool.false_eq_true, if_false, h2]
  decide

theorem C10_empty_accepted_witness :
    resolveCandidate "it is bad" = "" :=
  C10_empty_accepted.2 "it is bad" (by decide) (by decide)

/-! ### C5 -/

/-- C5: the composition pass of `get_usecase_from_lookup` can never match.
`"Paracetamol 500mg"` has first token `"Paracetamol"`, equal to the lookup key
`"Paracetamol"` up to letter case, yet the function returns `none` for a
medicine name matching no key: the code tests the lowercased token for
case-sensitive dict membership against capitalized keys. -/
theorem C5_composition_lookup_dead :
    lowerL (firstWordWS "Paracetamol 500mg".data) = "paracetamol".data ∧
    ("Paracetamol", "fever, pain, headache") ∈ COMMON_MEDICINE_USECASES ∧
    get_usecase_from_lookup "zzz" [some "Paracetamol 500mg"] = none := by decide

/-! ### C3 -/

/-- C3: `get_medicine_usecase` retries only rate-limit errors, makes at most 3
attempts and then propagates the rate-limit error; a non-rate-limit exception
is caught on the spot and yields `"unknown"` with no retry (the result does not
depend on any later attempt); a successful call is never retried. -/
theorem C3_retry_semantics (att : Nat → CallResult) :
    (∀ e, att 0 = .err e → is_rate_limit_error e = false →
      get_medicine_usecase att = .ok "unknown") ∧
    (∀ t, att 0 = .ok t → get_medicine_usecase att = gmu_body (.ok t)) ∧
    (∀ e t, att 0 = .err e → is_rate_limit_error e = true → att 1 = .ok t →
      get_medicine_usecase att = gmu_body (.ok t)) ∧
    (∀ e0 e1 e2, att 0 = .err e0 → att 1 = .err e1 → att 2 = .err e2 →
      is_rate_limit_error e0 = true → is_rate_limit_error e1 = true →
      is_rate_limit_error e2 = true → get_medicine_usecase att = .error e2) := by
  have hok : ∀ t : String, ∃ v, gmu_body (.ok t) = .ok v := by
    intro t
    simp only [gmu_body]
    split <;> exact ⟨_, rfl⟩
  refine ⟨?_, ?_, ?_, ?_⟩
  · intro e h0 hrl
    simp [get_medicine_usecase, backoffRetry, h0, gmu_body_err, hrl]
  · intro t h0
    obtain ⟨v, hv⟩ := hok t
    rw [get_medicine_usecase, backoffRetry, h0, hv]
  · intro e t h0 hrl h1
    obtain ⟨v, hv⟩ := hok t
    rw [hv]
    simp [get_medicine_usecase, backoffRetry, h0, h1, gmu_body_err, hrl, hv]
  · intro e0 e1 e2 h0 h1 h2 r0 r1 r2
    simp [get_medicine_usecase, backoffRetry, h0, h1, h2, gmu_body_err, r0, r1, r2]

theorem C3_retry_semantics_witness :
    get_medicine_usecase (fun _ => CallResult.err "boom") = .ok "unknown" ∧
    get_medicine_usecase (fun _ => CallResult.err "HTTP 429") = .error "HTTP 429" :=
  ⟨(C3_retry_semantics _).1 "boom" rfl (by decide),
   (C3_retry_semantics _).2.2.2 "HTTP 429" "HTTP 429" "HTTP 429" rfl rfl rfl
     (by decide) (by decide) (by decide)⟩

/-! ### C2 -/

/-- C2 (amended): a rate-limit error that exhausts the retry budget inside
`get_medicine_usecase` and propagates into the row loop does not halt the run:
the loop's exception handler catches it, checkpoints progress and clears the
pending results (then waits), and processing continues.  Moreover every
exception reaching the row loop from `processRow` is a rate-limit error. -/
theorem C2_rate_limit_not_fatal :
    (∀ (att : Nat → CallResult) (e : String), processRow att = .error e →
      is_rate_limit_error e = true) ∧
    (∀ (st : OSt) (i : Nat) (att : Nat → CallResult) (e : String),
      processRow att = .error e →
      doRow i att st = flushSave { st with queried := st.queried ++ [i] }) := by
  refine ⟨fun _ _ h => processRow_error_rl h, ?_⟩
  intro st i att e h
  simp only [doRow, h, processRow_error_rl h, if_true]
  have : (flushSave { st with queried := st.queried ++ [i] }).results = [] := rfl
  rw [this]
  simp

theorem C2_rate_limit_not_fatal_witness :
    doRow 0 (fun _ => CallResult.err "429") ⟨[none], [], [], []⟩ =
      flushSave ⟨[none], [], [], [0]⟩ :=
  C2_rate_limit_not_fatal.2 ⟨[none], [], [], []⟩ 0 _ "429" rfl

def rlOnlyAttempts : Nat → CallResult := fun _ => .err "429"

def okAttempts : Nat → CallResult := fun _ => .ok "fever"

def haltClaimRows : List Row :=
  [⟨"A", none, none, none, rlOnlyAttempts⟩, ⟨"B", none, none, none, okAttempts⟩]

/-- C2 counterexample: a two-row run whose first row exhausts its rate-limit
retry budget (the error propagates out of `get_medicine_usecase`).  The run
does not halt: the handler saves a checkpoint, and the second row is still
queried and resolved. -/
theorem C2_counterexample :
    (match get_medicine_usecase rlOnlyAttempts with
     | .error e => is_rate_limit_error e
     | .ok _ => false) = true ∧
    (process_dataset haltClaimRows 50).df = [none, some "fever"] ∧
    (process_dataset haltClaimRows 50).queried = [0, 1] ∧
    (process_dataset haltClaimRows 50).saves =
      [[none, none], [none, some "fever"]] := by decide

end MedUsecase

namespace MedUsecase

/-! ### Orchestrator invariants (C1, C8) -/

/-- A value the row loop is allowed to store: validator-accepted or the
sentinel. -/
def goodVal (v : String) : Prop :=
  validate_usecase v = true ∨ v = "unknown"

/-- Relation between the initial `Usecase` column and a stored snapshot: same
row count, and each entry is unchanged or a `goodVal`. -/
def snapOK (df0 snap : List (Option String)) : Prop :=
  snap.length = df0.length ∧
  ∀ i : Nat, snap[i]? = df0[i]? ∨ ∃ v, snap[i]? = some (some v) ∧ goodVal v

theorem resolveCandidate_good (u : String) : goodVal (resolveCandidate u) := by
  unfold resolveCandidate goodVal
  split
  · left; assumption
  · dsimp only
    split
    · left; assumption
    · right; rfl

theorem processRow_ok_good {att : Nat → CallResult} {v : String}
    (h : processRow att = .ok v) : goodVal v := by
  unfold processRow at h
  cases hg : get_medicine_usecase att with
  | error e => rw [hg] at h; exact absurd h (by simp)
  | ok u =>
    rw [hg] at h
    injection h with h2
    exact h2 ▸ resolveCandidate_good u

theorem applyUpdates_cons (df : List (Option String)) (kv : Nat × String)
    (rs : List (Nat × String)) :
    applyUpdates df (kv :: rs) = applyUpdates (df.set kv.1 (some kv.2)) rs := rfl

theorem applyUpdates_length (df : List (Option String)) (rs : List (Nat × String)) :
    (applyUpdates df rs).length = df.length := by
  induction rs generalizing df with
  | nil => rfl
  | cons kv rest ih => rw [applyUpdates_cons, ih, List.length_set]

theorem applyUpdates_snapOK {df0 df : List (Option String)} {rs : List (Nat × String)}
    (hdf : snapOK df0 df) (hrs : ∀ kv ∈ rs, goodVal kv.2) :
    snapOK df0 (applyUpdates df rs) := by
  induction rs generalizing df with
  | nil => exact hdf
  | cons kv rest ih =>
    rw [applyUpdates_cons]
    refine ih ⟨by rw [List.length_set]; exact hdf.1, ?_⟩
      (fun kv2 hm => hrs kv2 (List.mem_cons_of_mem _ hm))
    intro i
    rw [List.getElem?_set']
    by_cases hij : kv.1 = i
    · rw [if_pos hij]
      cases hdfi : df[i]? with
      | none =>
        rcases hdf.2 i with hu | ⟨v, hv, _⟩
        · left
          rw [hdfi] at hu
          rw [← hu]
          rfl
        · rw [hdfi] at hv
          exact absurd hv (by simp)
      | some w =>
        right
        exact ⟨kv.2, rfl, hrs kv (List.mem_cons_self _ _)⟩
    · rw [if_neg hij]
      exact hdf.2 i

/-- Whole-run invariant for C1: the dataframe and every saved snapshot are
`snapOK`, and every pending result is a `goodVal`. -/
def OInv (df0 : List (Option String)) (st : OSt) : Prop :=
  snapOK df0 st.df ∧ (∀ kv ∈ st.results, goodVal kv.2) ∧ ∀ s ∈ st.saves, snapOK df0 s

theorem flushSave_inv {df0 : List (Option String)} {st : OSt} (h : OInv df0 st) :
    OInv df0 (flushSave st) := by
  obtain ⟨h1, h2, h3⟩ := h
  have hdf := applyUpdates_snapOK h1 h2
  refine ⟨hdf, by simp [flushSave], ?_⟩
  intro s hs
  simp only [flushSave, List.mem_append, List.mem_singleton] at hs
  rcases hs with hs | rfl
  exacts [h3 s hs, hdf]

theorem doRow_inv {df0 : List (Option String)} {st : OSt} (i : Nat)
    (att : Nat → CallResult) (h : OInv df0 st) : OInv df0 (doRow i att st) := by
  have hq : OInv df0 ⟨st.df, st.results, st.saves, st.queried ++ [i]⟩ := h
  simp only [doRow]
  cases hp : processRow att with
  | ok v =>
    dsimp only
    have h2 : OInv df0
        ⟨st.df, st.results ++ [(i, v)], st.saves, st.queried ++ [i]⟩ := by
      refine ⟨h.1, ?_, h.2.2⟩
      intro kv hm
      rcases List.mem_append.1 hm with hm | hm
      · exact h.2.1 kv hm
      · rw [List.mem_singleton] at hm
        subst hm
        exact processRow_ok_good hp
    split
    · exact flushSave_inv h2
    · exact h2
  | error e =>
    dsimp only
    by_cases hrl : is_rate_limit_error e = true
    · simp only [if_pos hrl]
      split
      · exact flushSave_inv (flushSave_inv hq)
      · exact flushSave_inv hq
    · simp only [if_neg hrl]
      split
      · exact flushSave_inv hq
      · exact hq

theorem foldl_pres {β α : Type} {P : β → Prop} (f : β → α → β) (l : List α)
    (hf : ∀ st a, a ∈ l → P st → P (f st a)) : ∀ st, P st → P (l.foldl f st) := by
  induction l with
  | nil => intro st h; exact h
  | cons x xs ih =>
    intro st h
    exact ih (fun st a ha => hf st a (List.mem_cons_of_mem _ ha)) _
      (hf st x (List.mem_cons_self _ _) h)

theorem doBatch_inv {df0 : List (Option String)} {st : OSt} (rows : List Row)
    (idxs : List Nat) (h : OInv df0 st) : OInv df0 (doBatch rows idxs st) := by
  simp only [doBatch]
  split
  · exact h
  · exact flushSave_inv
      (foldl_pres _ _ (fun st2 i _ h2 => doRow_inv i (rowAtt rows i) h2) st h)

theorem process_dataset_inv (rows : List Row) (bs : Nat) :
    OInv (rows.map (fun r => r.usecase)) (process_dataset rows bs) := by
  unfold process_dataset
  exact foldl_pres _ _ (fun st c _ h => doBatch_inv rows c h) _
    ⟨⟨rfl, fun i => Or.inl rfl⟩, by simp, by simp⟩

/-- C1: after `process_dataset` runs, the dataframe and every snapshot written
to storage have exactly as many rows as were read, and every row's stored
usecase is either its original value or a value that `validate_usecase`
accepts or the sentinel `"unknown"` — never raw, unvalidated model output. -/
theorem C1_checkpoint_invariant (rows : List Row) (bs : Nat) :
    ((process_dataset rows bs).df.length = rows.length ∧
      ∀ snap ∈ (process_dataset rows bs).saves, snap.length = rows.length) ∧
    (∀ i : Nat,
      (process_dataset rows bs).df[i]? = (rows.map (fun r => r.usecase))[i]? ∨
      ∃ v, (process_dataset rows bs).df[i]? = some (some v) ∧
        (validate_usecase v = true ∨ v = "unknown")) ∧
    (∀ snap ∈ (process_dataset rows bs).saves, ∀ i : Nat,
      snap[i]? = (rows.map (fun r => r.usecase))[i]? ∨
      ∃ v, snap[i]? = some (some v) ∧
        (validate_usecase v = true ∨ v = "unknown")) := by
  obtain ⟨⟨hl, hv⟩, _, hs⟩ := process_dataset_inv rows bs
  refine ⟨⟨by rw [hl, List.length_map], ?_⟩, hv, ?_⟩
  · intro snap hm
    rw [(hs snap hm).1, List.length_map]
  · intro snap hm i
    exact (hs snap hm).2 i

theorem C1_checkpoint_invariant_witness :
    (process_dataset [⟨"A", none, none, none, fun _ => CallResult.ok "fever"⟩]
        50).df.length =
      ([⟨"A", none, none, none, fun _ => CallResult.ok "fever"⟩] : List Row).length ∧
    ((process_dataset [⟨"A", none, none, none, fun _ => CallResult.ok "fever"⟩]
          50).df[0]? =
        (([⟨"A", none, none, none, fun _ => CallResult.ok "fever"⟩] : List Row).map
          (fun r => r.usecase))[0]? ∨
      ∃ v, (process_dataset [⟨"A", none, none, none,
            fun _ => CallResult.ok "fever"⟩] 50).df[0]? = some (some v) ∧
          (validate_usecase v = true ∨ v = "unknown")) :=
  ⟨(C1_checkpoint_invariant _ 50).1.1,
   (C1_checkpoint_invariant _ 50).2.1 0⟩

end MedUsecase

namespace MedUsecase

/-- Whole-run invariant for C8, for a fixed resolved row `i`: its dataframe
entry still holds its initial value, no pending result targets it, and the
row loop never queried it. -/
def KInv (df0 : List (Option String)) (i : Nat) (st : OSt) : Prop :=
  st.df.getD i none = df0.getD i none ∧ (∀ kv ∈ st.results, kv.1 ≠ i) ∧
    i ∉ st.queried

theorem applyUpdates_getD_ne (df : List (Option String)) (rs : List (Nat × String))
    (i : Nat) (h : ∀ kv ∈ rs, kv.1 ≠ i) :
    (applyUpdates df rs).getD i none = df.getD i none := by
  induction rs generalizing df with
  | nil => rfl
  | cons kv rest ih =>
    rw [applyUpdates_cons, ih _ (fun kv2 hm => h kv2 (List.mem_cons_of_mem _ hm))]
    simp only [List.getD_eq_getElem?_getD]
    rw [List.getElem?_set_ne (h kv (List.mem_cons_self _ _))]

theorem flushSave_kinv {df0 : List (Option String)} {i : Nat} {st : OSt}
    (h : KInv df0 i st) : KInv df0 i (flushSave st) := by
  refine ⟨?_, by simp [flushSave], h.2.2⟩
  show (applyUpdates st.df st.results).getD i none = df0.getD i none
  rw [applyUpdates_getD_ne _ _ _ h.2.1]
  exact h.1

theorem doRow_kinv {df0 : List (Option String)} {i : Nat} {st : OSt} (j : Nat)
    (att : Nat → CallResult) (hji : j ≠ i) (h : KInv df0 i st) :
    KInv df0 i (doRow j att st) := by
  have hq : KInv df0 i ⟨st.df, st.results, st.saves, st.queried ++ [j]⟩ := by
    refine ⟨h.1, h.2.1, ?_⟩
    intro hm
    rcases List.mem_append.1 hm with hm | hm
    · exact h.2.2 hm
    · rw [List.mem_singleton] at hm
      exact hji hm.symm
  simp only [doRow]
  cases hp : processRow att with
  | ok v =>
    dsimp only
    have h2 : KInv df0 i ⟨st.df, st.results ++ [(j, v)], st.saves,
        st.queried ++ [j]⟩ := by
      refine ⟨h.1, ?_, hq.2.2⟩
      intro kv hm
      rcases List.mem_append.1 hm with hm | hm
      · exact h.2.1 kv hm
      · rw [List.mem_singleton] at hm
        subst hm
        exact hji
    split
    · exact flushSave_kinv h2
    · exact h2
  | error e =>
    dsimp only
    by_cases hrl : is_rate_limit_error e = true
    · simp only [if_pos hrl]
      split
      · exact flushSave_kinv (flushSave_kinv hq)
      · exact flushSave_kinv hq
    · simp only [if_neg hrl]
      split
      · exact flushSave_kinv hq
      · exact hq

theorem doBatch_kinv {df0 : List (Option String)} {i : Nat} {st : OSt}
    (rows : List Row) (idxs : List Nat)
    (hres : needsProcessing (df0.getD i none) = false) (h : KInv df0 i st) :
    KInv df0 i (doBatch rows idxs st) := by
  simp only [doBatch]
  split
  · exact h
  · refine flushSave_kinv (foldl_pres _ _ (fun st2 j hj h2 => ?_) st h)
    refine doRow_kinv j (rowAtt rows j) (fun hji => ?_) h2
    have := List.of_mem_filter hj
    rw [hji] at this
    rw [h.1] at this
    rw [hres] at this
    exact absurd this (by simp)

theorem process_dataset_kinv (rows : List Row) (bs : Nat) (i : Nat)
    (hres : needsProcessing ((rows.map (fun r => r.usecase)).getD i none) = false) :
    KInv (rows.map (fun r => r.usecase)) i (process_dataset rows bs) := by
  unfold process_dataset
  exact foldl_pres _ _ (fun st c _ h => doBatch_kinv rows c hres h) _
    ⟨rfl, by simp, by simp⟩

end MedUsecase

namespace MedUsecase

theorem firstPass_length (rows : List Row) :
    (firstPass rows).length = rows.length := by
  unfold firstPass
  refine @foldl_pres (List (Option String)) _ (fun df => df.length = rows.length) _ _
    (fun df j _ hdf => ?_) _ (List.length_map _ _)
  dsimp only at hdf ⊢
  split
  · split
    · split
      · rw [List.length_set]
        exact hdf
      · exact hdf
    · exact hdf
  · exact hdf

theorem firstPass_getD (rows : List Row) (i : Nat)
    (hres : needsProcessing ((rows.map (fun r => r.usecase)).getD i none) = false) :
    (firstPass rows).getD i none = (rows.map (fun r => r.usecase)).getD i none := by
  unfold firstPass
  refine @foldl_pres (List (Option String)) _
    (fun df => df.getD i none = (rows.map (fun r => r.usecase)).getD i none) _ _
    (fun df j _ hdf => ?_) _ rfl
  dsimp only at hdf ⊢
  by_cases hji : j = i
  · subst hji
    rw [hdf, hres]
    simp only [Bool.false_eq_true, if_false]
    exact hdf
  · split
    · split
      · split
        · simp only [List.getD_eq_getElem?_getD, List.getElem?_set_ne hji]
          simpa only [List.getD_eq_getElem?_getD] using hdf
        · exact hdf
      · exact hdf
    · exact hdf

theorem map_usecase_zipWith : ∀ (rows : List Row) (df : List (Option String)),
    df.length = rows.length →
    (List.zipWith (fun (r : Row) u => { r with usecase := u }) rows df).map
      (fun r => r.usecase) = df := by
  intro rows
  induction rows with
  | nil =>
    intro df h
    rw [List.length_nil, List.length_eq_zero] at h
    subst h
    rfl
  | cons r rs ih =>
    intro df h
    cases df with
    | nil => exact absurd h (by simp)
    | cons u us =>
      simp only [List.zipWith_cons_cons, List.map_cons]
      rw [ih us (by simpa using h)]

/-- C8: a row whose `Usecase` is neither missing, nor empty, nor `"unknown"`
is excluded from the rows to process and is never queried or overwritten —
neither by `process_dataset` nor by `process_dataset_with_fallback`; hence a
second run over a dataset with no external changes leaves every previously
resolved row unchanged. -/
theorem C8_resolved_rows_skipped (rows : List Row) (bs : Nat) (i : Nat)
    (hres : needsProcessing ((rows.map (fun r => r.usecase)).getD i none) = false) :
    ((process_dataset rows bs).df.getD i none =
        (rows.map (fun r => r.usecase)).getD i none ∧
      i ∉ (process_dataset rows bs).queried) ∧
    ((process_dataset_with_fallback rows bs).df.getD i none =
        (rows.map (fun r => r.usecase)).getD i none ∧
      i ∉ (process_dataset_with_fallback rows bs).queried) := by
  have h1 := process_dataset_kinv rows bs i hres
  refine ⟨⟨h1.1, h1.2.2⟩, ?_⟩
  have hmap : (List.zipWith (fun (r : Row) u => { r with usecase := u }) rows
      (firstPass rows)).map (fun r => r.usecase) = firstPass rows :=
    map_usecase_zipWith rows _ (firstPass_length rows)
  have hfp : (firstPass rows).getD i none =
      (rows.map (fun r => r.usecase)).getD i none :=
    firstPass_getD rows i hres
  have hres1 : needsProcessing (((List.zipWith
      (fun (r : Row) u => { r with usecase := u }) rows (firstPass rows)).map
        (fun r => r.usecase)).getD i none) = false := by
    rw [hmap, hfp]
    exact hres
  have h2 := process_dataset_kinv _ bs i hres1
  constructor
  · show (process_dataset _ bs).df.getD i none = _
    rw [h2.1, hmap, hfp]
  · show i ∉ (process_dataset _ bs).queried
    exact h2.2.2

theorem C8_resolved_rows_skipped_witness :
    ((process_dataset [⟨"A", none, none, some "fever",
          fun _ => CallResult.ok "x"⟩] 50).df.getD 0 none =
        (([⟨"A", none, none, some "fever", fun _ => CallResult.ok "x"⟩] :
          List Row).map (fun r => r.usecase)).getD 0 none ∧
      0 ∉ (process_dataset [⟨"A", none, none, some "fever",
          fun _ => CallResult.ok "x"⟩] 50).queried) ∧
    ((process_dataset_with_fallback [⟨"A", none, none, some "fever",
          fun _ => CallResult.ok "x"⟩] 50).df.getD 0 none =
        (([⟨"A", none, none, some "fever", fun _ => CallResult.ok "x"⟩] :
          List Row).map (fun r => r.usecase)).getD 0 none ∧
      0 ∉ (process_dataset_with_fallback [⟨"A", none, none, some "fever",
          fun _ => CallResult.ok "x"⟩] 50).queried) :=
  C8_resolved_rows_skipped _ 50 0 (by decide)

end MedUsecase

namespace MedUsecase

/-! ### C9 -/

/-- Left word boundary before a token occurrence: the preceding text is empty
or ends in a non-word character. -/
def boundaryLB (a : List Char) : Bool :=
  match a.getLast? with
  | none => true
  | some c => !isWordChar c

/-- Right word boundary after a token occurrence: the following text is empty
or starts with a non-word character. -/
def boundaryRB (b : List Char) : Bool :=
  match b.head? with
  | none => true
  | some c => !isWordChar c

/-- `l` contains the (lowercase) token `tok` as a whole word, in any letter
case: some occurrence `m` equal to `tok` up to lowercasing, delimited by word
boundaries. -/
def containsWordToken (tok l : List Char) : Prop :=
  ∃ a m b, l = a ++ m ++ b ∧ m.map Char.toLower = tok ∧
    boundaryLB a = true ∧ boundaryRB b = true

theorem prefixCI_append_of_map : ∀ (m b : List Char),
    prefixCI (m.map Char.toLower) (m ++ b) = true := by
  intro m
  induction m with
  | nil => intro b; rfl
  | cons c cs ih =>
    intro b
    simp only [List.map_cons, List.cons_append, prefixCI, List.append_eq]
    rw [ih b]
    simp

theorem wordTokAt_append {m b : List Char} (hb : boundaryRB b = true) :
    wordTokAt (m.map Char.toLower) (m ++ b) = true := by
  unfold wordTokAt
  rw [prefixCI_append_of_map]
  rw [List.length_map, List.drop_left]
  cases b with
  | nil => rfl
  | cons c cs => simpa [boundaryRB, List.head?] using hb

theorem searchWT_cons (toks : List (List Char)) (flag : Bool) (c : Char)
    (r : List Char) :
    searchWT toks flag (c :: r) =
      ((!flag && toks.any (fun t => wordTokAt t (c :: r))) ||
        searchWT toks (isWordChar c) r) := rfl

theorem searchWT_found {toks : List (List Char)} {tok : List Char} (htok : tok ∈ toks)
    (m b : List Char) (hm : m.map Char.toLower = tok) (hmne : m ≠ [])
    (hbr : boundaryRB b = true) :
    ∀ (a : List Char) (flag : Bool), boundaryLB a = true → (a = [] → flag = false) →
      searchWT toks flag (a ++ (m ++ b)) = true := by
  intro a
  induction a with
  | nil =>
    intro flag _ hflag
    rw [hflag rfl, List.nil_append]
    obtain ⟨c, m', rfl⟩ : ∃ c m', m = c :: m' := by
      cases m with
      | nil => exact absurd rfl hmne
      | cons c m' => exact ⟨c, m', rfl⟩
    rw [List.cons_append, searchWT_cons]
    have hany : toks.any (fun t => wordTokAt t (c :: (m' ++ b))) = true := by
      refine List.any_eq_true.2 ⟨tok, htok, ?_⟩
      rw [← hm]
      exact wordTokAt_append hbr
    simp [hany]
  | cons c a2 ih =>
    intro flag hbl _
    rw [List.cons_append, searchWT_cons]
    have htail : searchWT toks (isWordChar c) (a2 ++ (m ++ b)) = true := by
      refine ih (isWordChar c) ?_ ?_
      · cases a2 with
        | nil => rfl
        | cons d a3 =>
          rw [boundaryLB] at hbl ⊢
          rwa [List.getLast?_cons_cons] at hbl
      · intro h2
        subst h2
        rw [boundaryLB, List.getLast?_singleton] at hbl
        simpa using hbl
    rw [htail]
    simp

/-- C9: every string containing, as a whole word in any letter case, one of
the modal/auxiliary tokens (is, are, was, were, will, should, could, would,
can, may, might, must, has, have, had, does, do, did) or action tokens
(treat, use, help, provide, reduce, prevent, manage, relieve, alleviate) is
rejected by `validate_usecase`; and `"fever, headache, joint pain"` is
accepted. -/
theorem C9_verb_tokens_rejected :
    (∀ (s : String) (tok : List Char), tok ∈ modalLits ++ actionLits →
      containsWordToken tok s.data → validate_usecase s = false) ∧
    validate_usecase "fever, headache, joint pain" = true := by
  refine ⟨?_, by decide⟩
  rintro s tok htok ⟨a, m, b, hsplit, hm, hbl, hbr⟩
  have hmne : m ≠ [] := by
    intro h
    subst h
    rw [List.map_nil] at hm
    subst hm
    exact absurd htok (by decide)
  unfold validate_usecase
  split
  · rfl
  · rcases List.mem_append.1 htok with hmem | hmem
    · have hs : searchWT modalLits false s.data = true := by
        rw [hsplit, List.append_assoc]
        exact searchWT_found hmem m b hm hmne hbr a false hbl (fun _ => rfl)
      rw [hs]
      simp
    · have hs : searchWT actionLits false s.data = true := by
        rw [hsplit, List.append_assoc]
        exact searchWT_found hmem m b hm hmne hbr a false hbl (fun _ => rfl)
      rw [hs]
      simp

theorem C9_verb_tokens_rejected_witness :
    validate_usecase "this is bad" = false :=
  C9_verb_tokens_rejected.1 "this is bad" "is".data (by decide)
    ⟨"this ".data, "is".data, " bad".data, by decide, by decide, by decide,
      by decide⟩

end MedUsecase

namespace MedUsecase

/-! ### C7: occurrence infrastructure -/

theorem occursCI_cons (lit : List Char) (c : Char) (r : List Char) :
    occursCI lit (c :: r) = (prefixCI lit (c :: r) || occursCI lit r) := rfl

theorem occursCI_nil_lit : ∀ l : List Char, occursCI [] l = true := by
  intro l
  cases l with
  | nil => rfl
  | cons c r => rfl

theorem prefixCI_extend {lit : List Char} :
    ∀ {x : List Char} (y : List Char), prefixCI lit x = true →
      prefixCI lit (x ++ y) = true := by
  induction lit with
  | nil => intro x y _; rfl
  | cons a as ih =>
    intro x y h
    cases x with
    | nil => exact absurd h (by simp [prefixCI])
    | cons c cs =>
      rw [List.cons_append]
      rw [prefixCI] at h ⊢
      rw [Bool.and_eq_true] at h
      rcases h with ⟨h1, h2⟩
      rw [h1, ih y h2]
      rfl

theorem occursCI_append_left {lit x : List Char} (y : List Char)
    (h : occursCI lit x = true) : occursCI lit (x ++ y) = true := by
  induction x with
  | nil =>
    have : lit = [] := by
      cases lit with
      | nil => rfl
      | cons a as => exact absurd h (by simp [occursCI, List.isEmpty])
    subst this
    exact occursCI_nil_lit y
  | cons c cs ih =>
    rw [List.cons_append, occursCI_cons]
    rw [occursCI_cons] at h
    rw [Bool.or_eq_true] at h
    rcases h with h1 | h2
    · have hx := prefixCI_extend y h1
      rw [List.cons_append] at hx
      rw [hx]
      rfl
    · rw [ih h2]
      simp

theorem occursCI_append_right {lit : List Char} (x : List Char) {y : List Char}
    (h : occursCI lit y = true) : occursCI lit (x ++ y) = true := by
  induction x with
  | nil => exact h
  | cons c cs ih =>
    rw [List.cons_append, occursCI_cons, ih]
    simp

theorem occursCI_infix {lit m : List Char} (x y : List Char)
    (h : occursCI lit m = true) : occursCI lit (x ++ m ++ y) = true := by
  rw [List.append_assoc]
  exact occursCI_append_right x (occursCI_append_left y h)

theorem prefixCI_through_comma {lit : List Char} (hnc : ',' ∉ lit) :
    ∀ {y z : List Char}, prefixCI lit (y ++ ',' :: z) = true →
      prefixCI lit y = true := by
  induction lit with
  | nil => intro y z _; rfl
  | cons a as ih =>
    intro y z h
    cases y with
    | nil =>
      rw [List.nil_append, prefixCI] at h
      rw [Bool.and_eq_true] at h
      obtain ⟨h1, -⟩ := h
      have : a = ',' := by simpa using h1
      exact absurd (this ▸ List.mem_cons_self a as) hnc
    | cons c cs =>
      rw [List.cons_append, prefixCI] at h
      rw [Bool.and_eq_true] at h
      obtain ⟨h1, h2⟩ := h
      rw [prefixCI, h1, ih (fun hm => hnc (List.mem_cons_of_mem _ hm)) h2]
      rfl

/-- Literals whose occurrences survive the comma-space separators of
`", ".join`: nonempty, not starting with a comma or space, comma-free. -/
def goodLit : List Char → Bool
  | [] => false
  | c :: cs => !(c == ',') && !(c == ' ') && !((c :: cs).contains ',')

theorem goodLit_head {c : Char} {cs : List Char} (h : goodLit (c :: cs) = true) :
    c ≠ ',' ∧ c ≠ ' ' ∧ ',' ∉ c :: cs := by
  rw [goodLit] at h
  rw [Bool.and_eq_true, Bool.and_eq_true] at h
  obtain ⟨⟨h1, h2⟩, h3⟩ := h
  refine ⟨by simpa using h1, by simpa using h2, ?_⟩
  intro hm
  rw [Bool.not_eq_eq_eq_not, Bool.not_true] at h3
  have hc : (c :: cs).contains ',' = true :=
    List.contains_iff_exists_mem_beq.2 ⟨',', hm, by simp⟩
  rw [h3] at hc
  cases hc

theorem occursCI_sep {lit : List Char} (hg : goodLit lit = true) :
    ∀ (x z : List Char), occursCI lit (x ++ ',' :: ' ' :: z) = true →
      occursCI lit x = true ∨ occursCI lit z = true := by
  obtain ⟨c0, cs0, rfl⟩ : ∃ c0 cs0, lit = c0 :: cs0 := by
    cases lit with
    | nil => exact absurd hg (by simp [goodLit])
    | cons c cs => exact ⟨c, cs, rfl⟩
  obtain ⟨hc1, hc2, hnc⟩ := goodLit_head hg
  intro x
  induction x with
  | nil =>
    intro z h
    rw [List.nil_append, occursCI_cons, Bool.or_eq_true] at h
    rcases h with h1 | h2
    · rw [prefixCI, Bool.and_eq_true] at h1
      obtain ⟨hb, -⟩ := h1
      exact absurd (by simpa using hb) hc1
    · rw [occursCI_cons, Bool.or_eq_true] at h2
      rcases h2 with h3 | h4
      · rw [prefixCI, Bool.and_eq_true] at h3
        obtain ⟨hb, -⟩ := h3
        exact absurd (by simpa using hb) hc2
      · exact Or.inr h4
  | cons c cs ih =>
    intro z h
    rw [List.cons_append, occursCI_cons, Bool.or_eq_true] at h
    rcases h with h1 | h2
    · left
      rw [occursCI_cons]
      have : prefixCI (c0 :: cs0) ((c :: cs) ++ ',' :: (' ' :: z)) = true := by
        rw [List.cons_append]
        exact h1
      rw [prefixCI_through_comma hnc this]
      rfl
    · rcases ih z h2 with h3 | h3
      · left
        rw [occursCI_cons, h3]
        simp
      · exact Or.inr h3

theorem occursCI_joinComma {lit : List Char} (hg : goodLit lit = true) :
    ∀ xs : List (List Char), occursCI lit (joinComma xs) = true →
      ∃ x ∈ xs, occursCI lit x = true := by
  intro xs
  induction xs with
  | nil =>
    intro h
    rw [joinComma] at h
    cases clit : lit with
    | nil => rw [clit] at hg; exact absurd hg (by simp [goodLit])
    | cons a as => rw [clit] at h; exact absurd h (by simp [occursCI, List.isEmpty])
  | cons x t ih =>
    intro h
    cases t with
    | nil =>
      rw [joinComma] at h
      exact ⟨x, List.mem_singleton_self x, h⟩
    | cons y t2 =>
      rw [joinComma] at h
      rcases occursCI_sep hg x (joinComma (y :: t2)) h with h1 | h2
      · exact ⟨x, List.mem_cons_self _ _, h1⟩
      · rcases ih h2 with ⟨x2, hm, hx2⟩
        exact ⟨x2, List.mem_cons_of_mem _ hm, hx2⟩

end MedUsecase

namespace MedUsecase

/-! ### C7: splitComma reconstruction and pyStrip structure -/

/-- `','.join(items)` — the inverse of `splitComma`. -/
def join1 : List (List Char) → List Char
  | [] => []
  | [x] => x
  | x :: y :: t => x ++ ',' :: join1 (y :: t)

theorem splitComma_ne_nil : ∀ l : List Char, splitComma l ≠ [] := by
  intro l
  cases l with
  | nil => simp [splitComma]
  | cons c r =>
    rw [splitComma]
    cases splitComma r with
    | nil => simp
    | cons h t =>
      dsimp only
      by_cases hc : (c == ',') = true
      · rw [if_pos hc]
        simp
      · rw [if_neg hc]
        simp

theorem join1_splitComma : ∀ l : List Char, join1 (splitComma l) = l := by
  intro l
  induction l with
  | nil => rfl
  | cons c r ih =>
    rw [splitComma]
    cases hsp : splitComma r with
    | nil => exact absurd hsp (splitComma_ne_nil r)
    | cons h t =>
      dsimp only
      rw [hsp] at ih
      by_cases hc : (c == ',') = true
      · rw [if_pos hc]
        have hc2 : c = ',' := by simpa using hc
        subst hc2
        rw [join1]
        cases t with
        | nil => rw [join1] at ih ⊢; rw [ih]; rfl
        | cons y t2 => rw [ih]; rfl
      · rw [if_neg hc]
        cases t with
        | nil =>
          rw [join1] at ih ⊢
          rw [ih]
        | cons y t2 =>
          rw [join1] at ih ⊢
          rw [List.cons_append, ih]

theorem occursCI_join1_mem {lit x : List Char} :
    ∀ xs : List (List Char), x ∈ xs → occursCI lit x = true →
      occursCI lit (join1 xs) = true := by
  intro xs
  induction xs with
  | nil => intro hm; cases hm
  | cons z t ih =>
    intro hm h
    cases t with
    | nil =>
      rw [List.mem_singleton] at hm
      subst hm
      exact h
    | cons y t2 =>
      rw [join1]
      rcases List.mem_cons.1 hm with rfl | hm2
      · exact occursCI_append_left _ h
      · refine occursCI_append_right z ?_
        rw [occursCI_cons, ih hm2 h]
        simp

theorem occursCI_splitComma {lit x : List Char} {l : List Char}
    (hm : x ∈ splitComma l) (h : occursCI lit x = true) : occursCI lit l = true := by
  have := occursCI_join1_mem (splitComma l) hm h
  rwa [join1_splitComma] at this

theorem dropWhile_head_false {p : Char → Bool} {l : List Char} {c : Char}
    {t : List Char} (h : l.dropWhile p = c :: t) : p c = false := by
  induction l with
  | nil => simp [List.dropWhile] at h
  | cons d r ih =>
    by_cases hd : p d = true
    · rw [List.dropWhile_cons_of_pos hd] at h
      exact ih h
    · rw [List.dropWhile_cons_of_neg (by simpa using hd)] at h
      cases h
      simpa using hd

theorem pyStrip_decomp (l : List Char) :
    ∃ a b, l = a ++ pyStrip l ++ b := by
  have h1 : l = l.takeWhile pyWs ++ l.dropWhile pyWs :=
    (List.takeWhile_append_dropWhile pyWs l).symm
  have h2 : (l.dropWhile pyWs).reverse =
      (l.dropWhile pyWs).reverse.takeWhile pyWs ++
        (l.dropWhile pyWs).reverse.dropWhile pyWs :=
    (List.takeWhile_append_dropWhile pyWs ((l.dropWhile pyWs).reverse)).symm
  refine ⟨l.takeWhile pyWs,
    ((l.dropWhile pyWs).reverse.takeWhile pyWs).reverse, ?_⟩
  conv_lhs => rw [h1]
  rw [List.append_assoc]
  congr 1
  conv_lhs => rw [← List.reverse_reverse (l.dropWhile pyWs), h2]
  rw [List.reverse_append]
  rfl

theorem occursCI_strip {lit l : List Char}
    (h : occursCI lit (pyStrip l) = true) : occursCI lit l = true := by
  obtain ⟨a, b, hl⟩ := pyStrip_decomp l
  rw [hl]
  exact occursCI_infix a b h

theorem pyStrip_idem (l : List Char) : pyStrip (pyStrip l) = pyStrip l := by
  by_cases hvnil : (l.dropWhile pyWs).reverse.dropWhile pyWs = []
  · show pyStrip (((l.dropWhile pyWs).reverse.dropWhile pyWs).reverse) =
      ((l.dropWhile pyWs).reverse.dropWhile pyWs).reverse
    rw [hvnil]
    rfl
  · have hune : l.dropWhile pyWs ≠ [] := by
      intro h0
      apply hvnil
      rw [h0]
      rfl
    obtain ⟨e, u2, hu2⟩ : ∃ e u2, l.dropWhile pyWs = e :: u2 := by
      cases hx : l.dropWhile pyWs with
      | nil => exact absurd hx hune
      | cons e u2 => exact ⟨e, u2, rfl⟩
    have hehead : pyWs e = false := dropWhile_head_false hu2
    have hglv : ((l.dropWhile pyWs).reverse.dropWhile pyWs).getLast? = some e := by
      have hsplit : (l.dropWhile pyWs).reverse =
          (l.dropWhile pyWs).reverse.takeWhile pyWs ++
            (l.dropWhile pyWs).reverse.dropWhile pyWs :=
        (List.takeWhile_append_dropWhile pyWs ((l.dropWhile pyWs).reverse)).symm
      have h3 : ((l.dropWhile pyWs).reverse).getLast? =
          ((l.dropWhile pyWs).reverse.dropWhile pyWs).getLast? := by
        conv_lhs => rw [hsplit]
        rw [List.getLast?_append]
        cases hvl : ((l.dropWhile pyWs).reverse.dropWhile pyWs).getLast? with
        | none => exact absurd (List.getLast?_eq_none_iff.1 hvl) hvnil
        | some x => rfl
      rw [← h3, List.getLast?_reverse, hu2]
      rfl
    have hhead : (pyStrip l).head? = some e := by
      show (((l.dropWhile pyWs).reverse.dropWhile pyWs).reverse).head? = some e
      rw [List.head?_reverse, hglv]
    have hid1 : (pyStrip l).dropWhile pyWs = pyStrip l := by
      cases hx : pyStrip l with
      | nil => rfl
      | cons f t =>
        rw [hx, List.head?_cons] at hhead
        have hf : f = e := by injection hhead
        subst hf
        rw [List.dropWhile_cons_of_neg (by simpa using hehead)]
    show (((pyStrip l).dropWhile pyWs).reverse.dropWhile pyWs).reverse = pyStrip l
    rw [hid1]
    show ((((l.dropWhile pyWs).reverse.dropWhile pyWs).reverse).reverse.dropWhile
      pyWs).reverse = pyStrip l
    rw [List.reverse_reverse, List.dropWhile_idempotent]
    rfl

/-- `pyStrip` of a string that starts with a space equals `pyStrip` of its
tail: the leading space is dropped first. -/
theorem pyStrip_cons_space (y : List Char) : pyStrip (' ' :: y) = pyStrip y := by
  show ((((' ' :: y).dropWhile pyWs).reverse.dropWhile pyWs)).reverse = pyStrip y
  rw [List.dropWhile_cons_of_pos (by decide)]
  rfl

end MedUsecase

namespace MedUsecase

/-! ### C7: parenthesis-pair structure -/

/-- `l` contains a `'('` with a `')'` somewhere after it — exactly when
`re.sub(r'\([^)]*\)', '', l)` has a match. -/
def hasPP : List Char → Bool
  | [] => false
  | c :: r => (c == '(' && r.contains ')') || hasPP r

theorem hasPP_cons (c : Char) (r : List Char) :
    hasPP (c :: r) = ((c == '(' && r.contains ')') || hasPP r) := rfl

theorem contains_append (x y : List Char) (c : Char) :
    (x ++ y).contains c = (x.contains c || y.contains c) := by
  induction x with
  | nil => simp
  | cons a x' ih =>
    rw [List.cons_append, List.contains_cons, ih, List.contains_cons]
    cases c == a <;> simp

theorem hasPP_append (a b : List Char) :
    hasPP (a ++ b) =
      (hasPP a || (a.contains '(' && b.contains ')') || hasPP b) := by
  induction a with
  | nil => simp [hasPP]
  | cons c a' ih =>
    rw [List.cons_append, hasPP_cons, contains_append, ih, hasPP_cons,
      List.contains_cons]
    by_cases h : c = '('
    · subst h
      simp only [beq_self_eq_true, Bool.true_and, Bool.true_or]
      cases a'.contains ')' <;> cases b.contains ')' <;> cases hasPP a' <;>
        cases a'.contains '(' <;> cases hasPP b <;> rfl
    · have h1 : (c == '(') = false := by simpa using h
      have h2 : ('(' == c) = false := by
        simp only [beq_eq_false_iff_ne, ne_eq]
        exact fun hh => h (hh.symm)
      rw [h1, h2]
      cases a'.contains ')' <;> cases b.contains ')' <;> cases hasPP a' <;>
        cases a'.contains '(' <;> cases hasPP b <;> rfl

theorem contains_infix {x : List Char} (a b : List Char) {c : Char}
    (h : x.contains c = true) : (a ++ x ++ b).contains c = true := by
  rw [contains_append, contains_append, h]
  simp

theorem contains_strip {l : List Char} {c : Char}
    (h : (pyStrip l).contains c = true) : l.contains c = true := by
  obtain ⟨a, b, hl⟩ := pyStrip_decomp l
  rw [hl]
  exact contains_infix a b h

theorem hasPP_infix {x : List Char} (a b : List Char) (h : hasPP x = true) :
    hasPP (a ++ x ++ b) = true := by
  rw [hasPP_append, hasPP_append, h]
  simp

theorem hasPP_strip {l : List Char} (h : hasPP (pyStrip l) = true) :
    hasPP l = true := by
  obtain ⟨a, b, hl⟩ := pyStrip_decomp l
  rw [hl]
  exact hasPP_infix a b h

theorem contains_joinComma {c : Char} (hc1 : (c == ',') = false)
    (hc2 : (c == ' ') = false) :
    ∀ xs, (joinComma xs).contains c = true → ∃ x ∈ xs, x.contains c = true := by
  intro xs
  induction xs with
  | nil => intro h; rw [joinComma] at h; simp at h
  | cons x t ih =>
    intro h
    cases t with
    | nil =>
      rw [joinComma] at h
      exact ⟨x, List.mem_singleton_self x, h⟩
    | cons y t2 =>
      rw [joinComma, contains_append, List.contains_cons, List.contains_cons,
        hc1, hc2] at h
      simp only [Bool.false_or] at h
      rw [Bool.or_eq_true] at h
      rcases h with h1 | h2
      · exact ⟨x, List.mem_cons_self _ _, h1⟩
      · obtain ⟨x2, hm, hx2⟩ := ih h2
        exact ⟨x2, List.mem_cons_of_mem _ hm, hx2⟩

theorem contains_join1_mem {c : Char} :
    ∀ (xs : List (List Char)) (x : List Char), x ∈ xs → x.contains c = true →
      (join1 xs).contains c = true := by
  intro xs
  induction xs with
  | nil => intro x hm; cases hm
  | cons z t ih =>
    intro x hm h
    cases t with
    | nil =>
      rw [List.mem_singleton] at hm
      subst hm
      exact h
    | cons y t2 =>
      rw [join1, contains_append, List.contains_cons]
      rcases List.mem_cons.1 hm with rfl | hm2
      · rw [h]
        simp
      · rw [ih x hm2 h]
        simp

/-- The strip-and-filter step applied to a list of split segments;
`cleanItems l = processItems (splitComma l)`. -/
def processItems (xs : List (List Char)) : List (List Char) :=
  (xs.map pyStrip).filter okLen

theorem cleanItems_eq (l : List Char) :
    cleanItems l = processItems (splitComma l) := rfl

theorem processItems_nil : processItems [] = [] := rfl

theorem processItems_cons (x : List Char) (xs : List (List Char)) :
    processItems (x :: xs) =
      if okLen (pyStrip x) = true then pyStrip x :: processItems xs
      else processItems xs := by
  unfold processItems
  rw [List.map_cons, List.filter_cons]

theorem mem_processItems {x2 : List Char} {xs : List (List Char)}
    (h : x2 ∈ processItems xs) : ∃ x ∈ xs, x2 = pyStrip x := by
  unfold processItems at h
  obtain ⟨x, hx, hmap⟩ := List.mem_map.1 (List.mem_of_mem_filter h)
  exact ⟨x, hx, hmap.symm⟩

theorem contains_processItems {c : Char} (hc1 : (c == ',') = false)
    (hc2 : (c == ' ') = false) (xs : List (List Char))
    (h : (joinComma (processItems xs)).contains c = true) :
    (join1 xs).contains c = true := by
  obtain ⟨x2, hmem, hx2⟩ := contains_joinComma hc1 hc2 _ h
  obtain ⟨x, hx, rfl⟩ := mem_processItems hmem
  exact contains_join1_mem xs x hx (contains_strip hx2)

theorem hasPP_join1_head {x : List Char} {xs : List (List Char)}
    (h : hasPP x = true) : hasPP (join1 (x :: xs)) = true := by
  cases xs with
  | nil => exact h
  | cons y t =>
    rw [join1, hasPP_append, h]
    simp

theorem hasPP_comma_cons (r : List Char) : hasPP (',' :: r) = hasPP r := by
  rw [hasPP_cons]
  simp

theorem hasPP_space_cons (r : List Char) : hasPP (' ' :: r) = hasPP r := by
  rw [hasPP_cons]
  simp

theorem hasPP_processItems : ∀ xs : List (List Char),
    hasPP (joinComma (processItems xs)) = true → hasPP (join1 xs) = true := by
  intro xs
  induction xs with
  | nil => intro h; rw [processItems_nil, joinComma] at h; simp [hasPP] at h
  | cons x xs ih =>
    intro h
    rw [processItems_cons] at h
    by_cases hok : okLen (pyStrip x) = true
    · rw [if_pos hok] at h
      cases hrest : processItems xs with
      | nil =>
        rw [hrest, joinComma] at h
        exact hasPP_join1_head (hasPP_strip h)
      | cons y t =>
        rw [hrest, joinComma, hasPP_append, hasPP_comma_cons, hasPP_space_cons,
          List.contains_cons, List.contains_cons] at h
        rw [show ((')' : Char) == ',') = false from rfl,
          show ((')' : Char) == ' ') = false from rfl] at h
        simp only [Bool.false_or] at h
        have hxne : xs ≠ [] := by
          intro h0
          rw [h0, processItems_nil] at hrest
          cases hrest
        obtain ⟨z, zs, rfl⟩ := List.exists_cons_of_ne_nil hxne
        rw [join1, hasPP_append, hasPP_comma_cons, List.contains_cons]
        rw [show ((')' : Char) == ',') = false from rfl]
        simp only [Bool.false_or]
        rw [Bool.or_eq_true, Bool.or_eq_true] at h
        rcases h with (h1 | h2) | h3
        · rw [hasPP_strip h1]
          rfl
        · rw [Bool.and_eq_true] at h2
          obtain ⟨h2a, h2b⟩ := h2
          have hxa : x.contains '(' = true := contains_strip h2a
          have hxb : (join1 (z :: zs)).contains ')' = true := by
            refine @contains_processItems ')' rfl rfl (z :: zs) ?_
            rw [hrest]
            exact h2b
          rw [hxa, hxb]
          simp
        · have := ih (by rw [hrest]; exact h3)
          rw [this]
          simp
    · rw [if_neg hok] at h
      have h2 := ih h
      cases xs with
      | nil => simp [join1, hasPP] at h2
      | cons z zs =>
        rw [join1, hasPP_append, hasPP_comma_cons, h2]
        simp

end MedUsecase

namespace MedUsecase

/-! ### C7: the four substitution passes are the identity on pattern-free text -/

theorem findLit_none {lits : List (List Char)} {l : List Char}
    (h : ∀ lit ∈ lits, prefixCI lit l = false) : findLit lits l = none := by
  induction lits with
  | nil => rfl
  | cons lit rest ih =>
    rw [findLit, h lit (List.mem_cons_self _ _)]
    exact ih (fun lit2 hm => h lit2 (List.mem_cons_of_mem _ hm))

theorem occursCI_false_parts {lit : List Char} {c : Char} {r : List Char}
    (h : occursCI lit (c :: r) = false) :
    prefixCI lit (c :: r) = false ∧ occursCI lit r = false := by
  rw [occursCI_cons, Bool.or_eq_false_iff] at h
  exact h

theorem removeLitsF_id (lits : List (List Char)) :
    ∀ (f : Nat) (l : List Char), (∀ lit ∈ lits, occursCI lit l = false) →
      removeLitsF lits f l = l := by
  intro f
  induction f with
  | zero => intro l _; rfl
  | succ f ih =>
    intro l h
    cases l with
    | nil => rfl
    | cons c r =>
      have hp : ∀ lit ∈ lits, prefixCI lit (c :: r) = false :=
        fun lit hm => (occursCI_false_parts (h lit hm)).1
      simp only [removeLitsF, findLit_none hp]
      rw [ih r (fun lit hm => (occursCI_false_parts (h lit hm)).2)]

theorem removeLits_id {lits : List (List Char)} {l : List Char}
    (h : ∀ lit ∈ lits, occursCI lit l = false) : removeLits lits l = l :=
  removeLitsF_id lits l.length l h

theorem removeParensF_id : ∀ (f : Nat) (l : List Char), hasPP l = false →
    removeParensF f l = l := by
  intro f
  induction f with
  | zero => intro l _; rfl
  | succ f ih =>
    intro l h
    cases l with
    | nil => rfl
    | cons c r =>
      rw [hasPP_cons, Bool.or_eq_false_iff] at h
      rw [removeParensF, if_neg (by rw [h.1]; simp)]
      rw [ih r h.2]

theorem removeParens_id {l : List Char} (h : hasPP l = false) :
    removeParens l = l :=
  removeParensF_id l.length l h

theorem removeItThisF_id : ∀ (f : Nat) (l : List Char),
    occursCI "it ".data l = false → occursCI "this ".data l = false →
      removeItThisF f l = l := by
  intro f
  induction f with
  | zero => intro l _ _; rfl
  | succ f ih =>
    intro l h1 h2
    cases l with
    | nil => rfl
    | cons c r =>
      have hm : itThisMatch (c :: r) = false := by
        rw [itThisMatch, (occursCI_false_parts h1).1, (occursCI_false_parts h2).1]
        rfl
      rw [removeItThisF, if_neg (by rw [hm]; simp)]
      rw [ih r (occursCI_false_parts h1).2 (occursCI_false_parts h2).2]

theorem removeItThis_id {l : List Char} (h1 : occursCI "it ".data l = false)
    (h2 : occursCI "this ".data l = false) : removeItThis l = l :=
  removeItThisF_id l.length l h1 h2

/-! ### C7: the split/strip/filter/join tail is idempotent -/

theorem beq_symm_false {a b : Char} (h : (a == b) = false) : (b == a) = false := by
  simp only [beq_eq_false_iff_ne, ne_eq] at h ⊢
  exact fun hh => h hh.symm

theorem splitComma_id_of_no_comma {l : List Char} (h : l.contains ',' = false) :
    splitComma l = [l] := by
  induction l with
  | nil => rfl
  | cons c r ih =>
    rw [List.contains_cons, Bool.or_eq_false_iff] at h
    rw [splitComma, ih h.2]
    dsimp only
    rw [if_neg (by rw [beq_symm_false h.1]; simp)]

theorem splitComma_append_comma {x : List Char} (z : List Char)
    (h : x.contains ',' = false) :
    splitComma (x ++ ',' :: z) = x :: splitComma z := by
  induction x with
  | nil =>
    obtain ⟨h0, t0, hz⟩ := List.exists_cons_of_ne_nil (splitComma_ne_nil z)
    rw [List.nil_append, splitComma, hz]
    dsimp only
    rw [if_pos (show ((',' : Char) == ',') = true from rfl), ← hz]
  | cons c x2 ih =>
    rw [List.contains_cons, Bool.or_eq_false_iff] at h
    rw [List.cons_append, splitComma, ih h.2]
    dsimp only
    rw [if_neg (by rw [beq_symm_false h.1]; simp)]

theorem splitComma_joinComma : ∀ (t : List (List Char)) (x : List Char),
    (∀ y ∈ x :: t, y.contains ',' = false) →
    splitComma (joinComma (x :: t)) = x :: t.map (fun y => ' ' :: y) := by
  intro t
  induction t with
  | nil =>
    intro x h
    rw [joinComma, splitComma_id_of_no_comma (h x (List.mem_cons_self _ _))]
    rfl
  | cons y t2 ih =>
    intro x h
    rw [joinComma, splitComma_append_comma _ (h x (List.mem_cons_self _ _))]
    have hih := ih y (fun z hm => h z (List.mem_cons_of_mem _ hm))
    rw [splitComma, hih]
    dsimp only
    rw [if_neg (by simp)]
    rfl

theorem processItems_space_map : ∀ t : List (List Char),
    (∀ x ∈ t, pyStrip x = x) → (∀ x ∈ t, okLen x = true) →
    processItems (t.map (fun y => ' ' :: y)) = t := by
  intro t
  induction t with
  | nil => intro _ _; rfl
  | cons y t2 ih =>
    intro h2 h3
    rw [List.map_cons, processItems_cons, pyStrip_cons_space,
      h2 y (List.mem_cons_self _ _)]
    rw [if_pos (h3 y (List.mem_cons_self _ _))]
    rw [ih (fun x hm => h2 x (List.mem_cons_of_mem _ hm))
      (fun x hm => h3 x (List.mem_cons_of_mem _ hm))]

theorem cleanItems_joinComma (its : List (List Char))
    (h1 : ∀ x ∈ its, x.contains ',' = false)
    (h2 : ∀ x ∈ its, pyStrip x = x)
    (h3 : ∀ x ∈ its, okLen x = true) :
    cleanItems (joinComma its) = its := by
  cases its with
  | nil => rfl
  | cons x t =>
    rw [cleanItems_eq, splitComma_joinComma t x h1, processItems_cons,
      h2 x (List.mem_cons_self _ _)]
    rw [if_pos (h3 x (List.mem_cons_self _ _))]
    rw [processItems_space_map t (fun z hm => h2 z (List.mem_cons_of_mem _ hm))
      (fun z hm => h3 z (List.mem_cons_of_mem _ hm))]

theorem splitComma_no_comma : ∀ {l seg : List Char}, seg ∈ splitComma l →
    seg.contains ',' = false := by
  intro l
  induction l with
  | nil =>
    intro seg hm
    rw [show splitComma [] = [[]] from rfl, List.mem_singleton] at hm
    subst hm
    rfl
  | cons c r ih =>
    intro seg hm
    obtain ⟨h0, t0, hz⟩ := List.exists_cons_of_ne_nil (splitComma_ne_nil r)
    rw [splitComma, hz] at hm
    dsimp only at hm
    by_cases hc : (c == ',') = true
    · rw [if_pos hc] at hm
      rcases List.mem_cons.1 hm with rfl | hm2
      · rfl
      · exact ih (hz ▸ hm2)
    · rw [if_neg hc] at hm
      rcases List.mem_cons.1 hm with rfl | hm2
      · rw [List.contains_cons]
        rw [beq_symm_false (by simpa using hc)]
        rw [ih (hz ▸ List.mem_cons_self h0 t0)]
        rfl
      · exact ih (hz ▸ List.mem_cons_of_mem _ hm2)

theorem cleanItems_no_comma {l x : List Char} (h : x ∈ cleanItems l) :
    x.contains ',' = false := by
  obtain ⟨seg, hseg, rfl⟩ := mem_processItems (by rw [← cleanItems_eq]; exact h)
  cases hx : (pyStrip seg).contains ',' with
  | false => rfl
  | true =>
    have h2 := contains_strip hx
    rw [splitComma_no_comma hseg] at h2
    cases h2

theorem cleanItems_strip {l x : List Char} (h : x ∈ cleanItems l) :
    pyStrip x = x := by
  obtain ⟨seg, _, rfl⟩ := mem_processItems (by rw [← cleanItems_eq]; exact h)
  exact pyStrip_idem seg

theorem cleanItems_okLen {l x : List Char} (h : x ∈ cleanItems l) :
    okLen x = true :=
  List.of_mem_filter h

end MedUsecase

namespace MedUsecase

/-! ### C7: main theorem -/

/-- A string free of every pattern the four `re.sub` passes of
`clean_usecase` remove: the connector phrases (`used in/for/to`,
`treatment of`, `indicated for`, `helps with`, `treats`), the explanatory
markers (`such as`, `including`, `like`, `e.g.`, `i.e.`), parenthetical text
(a `'('` with a later `')'`), and the `it`/`this` clause triggers (`"it "`,
`"this "`), all case-insensitively. -/
def cleanFree (l : List Char) : Prop :=
  (∀ lit ∈ connectorLits, occursCI lit l = false) ∧
  (∀ lit ∈ explanatoryLits, occursCI lit l = false) ∧
  hasPP l = false ∧
  occursCI "it ".data l = false ∧ occursCI "this ".data l = false

theorem stages_id {l : List Char} (h : cleanFree l) :
    removeItThis (removeParens (removeLits explanatoryLits
      (removeLits connectorLits l))) = l := by
  rw [removeLits_id h.1, removeLits_id h.2.1, removeParens_id h.2.2.1,
    removeItThis_id h.2.2.2.1 h.2.2.2.2]

theorem clean_usecase_of_free {s : String} (h : cleanFree s.data) :
    clean_usecase s = String.mk (joinComma (cleanItems s.data)) := by
  unfold clean_usecase
  rw [stages_id h]

theorem occursCI_cleanJoin {lit l : List Char} (hg : goodLit lit = true)
    (h : occursCI lit l = false) :
    occursCI lit (joinComma (cleanItems l)) = false := by
  cases hx : occursCI lit (joinComma (cleanItems l)) with
  | false => rfl
  | true =>
    obtain ⟨x, hm, hocc⟩ := occursCI_joinComma hg _ hx
    obtain ⟨seg, hseg, rfl⟩ := mem_processItems (by rw [← cleanItems_eq]; exact hm)
    have h2 := occursCI_splitComma hseg (occursCI_strip hocc)
    rw [h2] at h
    cases h

theorem hasPP_cleanJoin {l : List Char} (h : hasPP l = false) :
    hasPP (joinComma (cleanItems l)) = false := by
  cases hx : hasPP (joinComma (cleanItems l)) with
  | false => rfl
  | true =>
    have h2 := hasPP_processItems (splitComma l) (by rw [← cleanItems_eq]; exact hx)
    rw [join1_splitComma] at h2
    rw [h2] at h
    cases h

theorem cleanFree_output {l : List Char} (h : cleanFree l) :
    cleanFree (joinComma (cleanItems l)) := by
  obtain ⟨h1, h2, h3, h4, h5⟩ := h
  refine ⟨?_, ?_, hasPP_cleanJoin h3, ?_, ?_⟩
  · intro lit hm
    have hg : goodLit lit = true := by
      revert hm
      revert lit
      decide
    exact occursCI_cleanJoin hg (h1 lit hm)
  · intro lit hm
    have hg : goodLit lit = true := by
      revert hm
      revert lit
      decide
    exact occursCI_cleanJoin hg (h2 lit hm)
  · exact occursCI_cleanJoin (by decide) h4
  · exact occursCI_cleanJoin (by decide) h5

/-- C7 (amended): `clean_usecase` is idempotent on strings free of every
pattern its substitution passes remove — the connector phrases, the
explanatory markers (`such as`, `including`, `like`, `e.g.`, `i.e.`),
parenthetical text, and the `it`/`this` clause triggers.  (The claim's
hypothesis — freedom from the five connector phrases and parentheticals
alone — is not sufficient; see the counterexample.) -/
theorem C7_clean_idempotent (s : String) (h : cleanFree s.data) :
    clean_usecase (clean_usecase s) = clean_usecase s := by
  have h1 := clean_usecase_of_free h
  have hout : cleanFree (String.mk (joinComma (cleanItems s.data))).data :=
    cleanFree_output h
  rw [h1, clean_usecase_of_free hout]
  show String.mk (joinComma (cleanItems (joinComma (cleanItems s.data)))) = _
  rw [cleanItems_joinComma (cleanItems s.data)
    (fun x hm => cleanItems_no_comma hm)
    (fun x hm => cleanItems_strip hm)
    (fun x hm => cleanItems_okLen hm)]

/-- C7 counterexample: `"treit a,ats"` contains none of the claim's five
connector phrases and no parenthetical text, yet `clean_usecase` is not
idempotent on it: the `(it|this)` pass rewrites it to `"treats"`, and a
second cleaning erases that to `""`. -/
theorem C7_counterexample :
    (∀ lit ∈ ["used for".data, "treatment of".data, "indicated for".data,
        "helps with".data, "treats".data],
      occursCI lit "treit a,ats".data = false) ∧
    hasPP "treit a,ats".data = false ∧
    clean_usecase (clean_usecase "treit a,ats") ≠ clean_usecase "treit a,ats" := by
  refine ⟨by decide, by decide, ?_⟩
  show clean_usecase (clean_usecase "treit a,ats") ≠ clean_usecase "treit a,ats"
  decide

theorem C7_clean_idempotent_witness :
    cleanFree "fever, headache".data ∧
    clean_usecase (clean_usecase "fever, headache") = clean_usecase "fever, headache" :=
  ⟨by constructor
      · decide
      constructor
      · decide
      refine ⟨by decide, by decide, by decide⟩,
   C7_clean_idempotent "fever, headache"
     ⟨by decide, by decide, by decide, by decide, by decide⟩⟩

end MedUsecase
